import Mathlib

/-!
Verification development for the `cursor_todo_runner` step resolution and
lifecycle engine.

The definitions below are a shallow embedding of the core scripts:

* `bin/runner/next-step.mjs` — the readiness resolver (`stepIdFromFilename`,
  `parseDependsOn`, `listStepFiles`, `getCompletedIds`, `getPendingSteps`,
  `topoNext`, `actionRequiredFiles`, `main`);
* `bin/runner/on-step-completed.mjs` — the TODO completion promoter;
* `bin/runner/on-phase-done.mjs` — `movePhaseDocToCompleted`;
* `bin/runner/run-steps.sh` — the `resolved_*` marker reconciliation loop.

Filesystem state is modelled by directory listings (`List String`, in the
order the OS returns entries) and a content lookup function; file moves
become list operations.  JavaScript regular expressions over the step-id
grammar `P\d+(\.\d+)*_\d+(\.\d+)*\.\d+(\.\d+)*` are implemented as a
character-level parser with the same greedy/backtracking behaviour on the
maximal digit-and-dot runs concerned.
-/

namespace TodoRunner

/-- Whitespace class standing in for the regex class `\s` (ASCII subset,
matching the whitespace that actually occurs in step files). -/
def isWs (c : Char) : Bool := c = ' ' || c = '\t' || c = '\n' || c = '\r'

/-- Kernel-computable embedding of JavaScript `startsWith` on strings. -/
def strStartsWith (s pre : String) : Bool := pre.data.isPrefixOf s.data

/-- Kernel-computable embedding of JavaScript `endsWith` on strings. -/
def strEndsWith (s suffix : String) : Bool := suffix.data.isSuffixOf s.data

/-- Fuelled worker for `dottedTail`; every recursive call consumes at
least two characters, so fuel equal to the input length is enough. -/
def dottedTailAux : Nat → List Char → List Char × List Char
  | 0, l => ([], l)
  | fuel + 1, l =>
    match l with
    | '.' :: c :: rest =>
      if c.isDigit then
        let ds := (c :: rest).takeWhile Char.isDigit
        let r := (c :: rest).dropWhile Char.isDigit
        let p := dottedTailAux fuel r
        ('.' :: (ds ++ p.1), p.2)
      else ([], l)
    | _ => ([], l)

/-- Greedy parse of the regex fragment `(\.\d+)*`: consume dot-then-digits
groups while well formed.  Returns the consumed characters and the rest. -/
def dottedTail (l : List Char) : List Char × List Char := dottedTailAux l.length l

/-- Greedy parse of `\d+(\.\d+)*`: the maximal well-formed dotted-digit
prefix of `l`, or `none` when `l` does not start with a digit. -/
def parseDotted (l : List Char) : Option (List Char × List Char) :=
  let ds := l.takeWhile Char.isDigit
  if ds.isEmpty then none
  else
    let p := dottedTail (l.dropWhile Char.isDigit)
    some (ds ++ p.1, p.2)

/-- Number of dots in a parsed dotted run (segments = dots + 1). -/
def countDots (l : List Char) : Nat := l.count '.'

/-- Embedding of `stepIdFromFilename` (next-step.mjs): match the versioned
step id regex `^(P\d+(?:\.\d+)*_\d+(?:\.\d+)*\.\d+(?:\.\d+)*)_` at the start
of a filename.  The todo-and-step part after the underscore needs at least
two dotted segments, and the id must be followed by an underscore. -/
def stepIdFromFilename (name : String) : Option String :=
  match name.data with
  | 'P' :: rest =>
    match parseDotted rest with
    | some (a, '_' :: r2) =>
      match parseDotted r2 with
      | some (b, r3) =>
        if 0 < countDots b then
          match r3 with
          | '_' :: _ => some (String.mk ('P' :: (a ++ '_' :: b)))
          | _ => none
        else none
      | none => none
    | _ => none
  | _ => none

/-- One attempt of the unanchored `STEP_ID_REGEX` at the head of `l`;
on success returns the matched id and the characters after the match. -/
def stepIdAt (l : List Char) : Option (String × List Char) :=
  match l with
  | 'P' :: rest =>
    match parseDotted rest with
    | some (a, '_' :: r2) =>
      match parseDotted r2 with
      | some (b, r3) =>
        if 0 < countDots b then some (String.mk ('P' :: (a ++ '_' :: b)), r3)
        else none
      | none => none
    | _ => none
  | _ => none

/-- Fuelled scanner for `line.match(STEP_ID_REGEX)` with the `g` flag:
left-to-right, non-overlapping matches, advancing one character on failure.
The fuel is the length of the text, which bounds the number of scan steps. -/
def scanAux : Nat → List Char → List String
  | 0, _ => []
  | _, [] => []
  | fuel + 1, c :: rest =>
    match stepIdAt (c :: rest) with
    | some (id, r) => id :: scanAux fuel r
    | none => scanAux fuel rest

/-- All matches of `STEP_ID_REGEX` in a piece of text. -/
def scanIds (l : List Char) : List String := scanAux l.length l

/-- Fuelled worker for `dedupFirst`; each recursive call consumes at least
one element, so fuel equal to the input length is enough. -/
def dedupFirstAux : Nat → List String → List String
  | 0, _ => []
  | _, [] => []
  | fuel + 1, x :: xs => x :: dedupFirstAux fuel (xs.filter (fun y => !(y == x)))

/-- Embedding of `[...new Set(ids)]`: deduplicate keeping the first
occurrence of each id. -/
def dedupFirst (l : List String) : List String := dedupFirstAux l.length l

/-- Embedding of JavaScript `String.prototype.trim` on the section value. -/
def trimChars (l : List Char) : List Char :=
  ((l.dropWhile isWs).reverse.dropWhile isWs).reverse

/-- Lower-cased header text matched case-insensitively by the section
regex `/## Depends on/i`. -/
def headerChars : List Char := "## depends on".data

/-- The lazy capture group `([\s\S]*?)` up to the lookahead `(?=\n## |$)`:
take characters until the first occurrence of a newline followed by
the three characters of a new section header, or the end of the text. -/
def cutAux : List Char → List Char
  | [] => []
  | c :: rest =>
    if c == '\n' && rest.take 3 == ['#', '#', ' '] then []
    else c :: cutAux rest

/-- Embedding of `content.match(/## Depends on\s*\n([\s\S]*?)(?=\n## |$)/i)`:
scan for the first position where the header matches case-insensitively and
is followed by whitespace containing a newline; the greedy `\s*\n` consumes
through the last newline of that whitespace run, and the capture extends to
the next section header or the end. -/
def extractDependsSection : List Char → Option (List Char)
  | [] => none
  | c :: rest =>
    if ((c :: rest).take 13).map Char.toLower == headerChars then
      let after := (c :: rest).drop 13
      let run := after.takeWhile isWs
      if run.contains '\n' then
        let trailing := run.reverse.takeWhile (fun x => !(x == '\n'))
        some (cutAux (after.drop (run.length - trailing.length)))
      else extractDependsSection rest
    else extractDependsSection rest

/-- Embedding of `/^none/i.test(line)`: the trimmed section value starts
with the four letters of "none" in any case. -/
def startsWithNone (l : List Char) : Bool :=
  (l.take 4).map Char.toLower == "none".data

/-- Embedding of `parseDependsOn` (next-step.mjs): extract the
"Depends on" section, return `[]` when absent, when the trimmed value
starts with "none", or when no well-formed step ids occur in it; otherwise
the deduplicated list of matched step ids. -/
def parseDependsOn (content : String) : List String :=
  match extractDependsSection content.data with
  | none => []
  | some sec =>
    let line := trimChars sec
    if startsWithNone line then []
    else dedupFirst (scanIds line)

/-!  The readiness resolver: next-step.mjs `main` and its helpers. -/

/-- A pending step as built by `getPendingSteps`: parsed id, source
filename, declared dependency list. -/
structure Step where
  id : String
  filename : String
  dependsOn : List String
deriving DecidableEq, Repr

/-- Embedding of `listStepFiles`: keep the `.md` entries of a directory
listing whose filename yields a step id. -/
def listStepFiles (listing : List String) : List String :=
  listing.filter (fun f => strEndsWith f ".md" && (stepIdFromFilename f).isSome)

/-- The filesystem and options visible to one invocation of next-step.mjs.
Listings are in the order `readdirSync` returns entries (the OS order, which
is not specified to be sorted); `contentOf` is `readStepFile` on the active
steps area (`none` models a read failure); `existsNow` is the `existsSync`
re-check made just before selection; the `templateHas`-flags record whether
the prompt template contains each required placeholder. -/
structure Env where
  actionListing : List String
  completedListing : List String
  activeListing : List String
  contentOf : String → Option String
  existsNow : String → Bool
  phaseFilter : Option String
  dryRun : Bool
  templateHasStepFile : Bool
  templateHasOutput : Bool
  templateHasManual : Bool

/-- Embedding of `actionRequiredFiles` (next-step.mjs): `.md` files of the
action-required area except those named `resolved_*`. -/
def actionRequiredFiles (env : Env) : List String :=
  env.actionListing.filter (fun f => strEndsWith f ".md" && !(strStartsWith f "resolved_"))

/-- Embedding of `getCompletedIds`: ids parsed from the completed-steps
listing (the JavaScript `Set` is modelled by list membership). -/
def getCompletedIds (env : Env) : List String :=
  (listStepFiles env.completedListing).filterMap stepIdFromFilename

/-- Embedding of `getPendingSteps`: parse each active step file into a
`Step`; an unreadable file contributes an empty dependency list. -/
def getPendingSteps (env : Env) : List Step :=
  (listStepFiles env.activeListing).map (fun f =>
    { id := (stepIdFromFilename f).getD ""
      filename := f
      dependsOn :=
        match env.contentOf f with
        | some c => parseDependsOn c
        | none => [] })

/-- The `satisfied` predicate of `topoNext`: a dependency is satisfied when
completed or when it is not the id of any currently-pending step. -/
def readyFor (pending : List Step) (completedIds : List String) (s : Step) : Bool :=
  s.dependsOn.all (fun d =>
    completedIds.contains d || !((pending.map Step.id).contains d))

/-- Embedding of `topoNext` (next-step.mjs): the ready subset of the
pending steps, in listing order. -/
def topoNext (pending : List Step) (completedIds : List String) : List Step :=
  pending.filter (readyFor pending completedIds)

/-- The pending list after the optional `--phase` filter of `main`. -/
def consideredPending (env : Env) : List Step :=
  match env.phaseFilter with
  | some pf =>
    (getPendingSteps env).filter (fun s =>
      !(s.id == "") && (s.id == pf || strStartsWith s.id (pf ++ ".")))
  | none => getPendingSteps env

/-- Observable outcome of one next-step.mjs run: the process exit code,
the step written to NEXT.md (if any), and the list of files or ids printed
for the operator in the blocked branches. -/
structure RunResult where
  exit : Nat
  wrote : Option Step
  reported : List String
deriving DecidableEq, Repr

/-- The tail of `main` after the blocker gate and emptiness checks:
compute the ready set, re-check file existence, honour `--dry-run`, and
either write NEXT.md (exit 0) or fail.  A missing template placeholder
raises an uncaught exception, which the node process reports as exit
code 1 — the same code as the blocked branches. -/
def resolvePhase (env : Env) (completedIds : List String) (pending : List Step) :
    RunResult :=
  match topoNext pending completedIds with
  | [] => ⟨1, none, pending.map Step.id⟩
  | r :: rs =>
    match (r :: rs).filter (fun s => env.existsNow s.filename) with
    | [] => ⟨if env.dryRun then 2 else 0, none, []⟩
    | s :: _ =>
      if env.dryRun then ⟨0, none, []⟩
      else if env.templateHasStepFile && env.templateHasOutput && env.templateHasManual then
        ⟨0, some s, []⟩
      else ⟨1, none, []⟩

/-- `main` after the action-required gate: the phase-filter empty check
exits `--dry-run ? 2 : 0`, the global empty check exits 0, and otherwise
resolution proceeds on the considered pending steps. -/
def mainAfterGate (env : Env) : RunResult :=
  match consideredPending env, env.phaseFilter with
  | [], some _ => ⟨if env.dryRun then 2 else 0, none, []⟩
  | [], none => ⟨0, none, []⟩
  | p :: ps, _ => resolvePhase env (getCompletedIds env) (p :: ps)

/-- Embedding of `main` (next-step.mjs): if any non-resolved action file
exists, print them all and exit 1; otherwise resolve. -/
def runMain (env : Env) : RunResult :=
  match actionRequiredFiles env with
  | f :: fs => ⟨1, none, f :: fs⟩
  | [] => mainAfterGate env

/-!  The completion promoter: on-step-completed.mjs. -/

/-- Embedding of `todoIdFromStepFilename` composed of `stepIdFromFilename`
and `lastIndexOf(".")`: strip the trailing dotted component of a step id
(keeping the whole id when the only dot is at position 0 or absent). -/
def todoIdOfStepId (id : String) : String :=
  let cs := id.data
  let tail := cs.reverse.takeWhile (fun c => !(c == '.'))
  if tail.length == cs.length then id
  else if 0 < cs.length - tail.length - 1 then
    String.mk (cs.take (cs.length - tail.length - 1))
  else id

/-- Embedding of `todoIdFromStepFilename` (on-step-completed.mjs). -/
def todoIdFromStepFilename (name : String) : Option String :=
  (stepIdFromFilename name).map todoIdOfStepId

/-- The filter applied to the active steps listing: a remaining sibling
step is a `.md` file whose id equals the TODO id or is nested under it. -/
def remainingStepPred (todoId : String) (f : String) : Bool :=
  strEndsWith f ".md" &&
    (match stepIdFromFilename f with
     | some id => id == todoId || strStartsWith id (todoId ++ ".")
     | none => false)

/-- The filter applied to the active TODO listing: a candidate TODO file
is a `.md` file whose name starts with the TODO id and an underscore. -/
def todoFilePred (todoId : String) (f : String) : Bool :=
  strEndsWith f ".md" && strStartsWith f (todoId ++ "_")

/-- Embedding of on-step-completed.mjs `main`: given the completed step's
basename and the listings of the active steps and active TODO areas, the
TODO file moved to completed, or `none` when nothing is moved. -/
def onStepCompleted (stepBasename : String) (activeSteps activeTodos : List String) :
    Option String :=
  if !(strEndsWith stepBasename ".md") then none
  else
    match todoIdFromStepFilename stepBasename with
    | none => none
    | some tid =>
      match activeSteps.filter (remainingStepPred tid) with
      | _ :: _ => none
      | [] => (activeTodos.filter (todoFilePred tid)).head?

/-- Filesystem state touched by the TODO promoter: the active steps
listing, the active TODO listing and the completed TODO listing. -/
structure TodoState where
  activeSteps : List String
  activeTodos : List String
  completedTodos : List String
deriving DecidableEq

/-- One invocation of on-step-completed.mjs as a state transformation:
`renameSync` removes the chosen TODO file from the active listing and
appends it to the completed listing. -/
def onStepCompletedRun (stepBasename : String) (st : TodoState) : TodoState :=
  match onStepCompleted stepBasename st.activeSteps st.activeTodos with
  | none => st
  | some f => ⟨st.activeSteps, st.activeTodos.erase f, st.completedTodos ++ [f]⟩

/-!  The phase promoter: on-phase-done.mjs `movePhaseDocToCompleted`. -/

/-- Filesystem state touched by the phase promoter (listings of regular
`.md` files in the phase active and completed areas). -/
structure PhaseState where
  phaseActive : List String
  phaseCompleted : List String
deriving DecidableEq

/-- The phase-document filter of `movePhaseDocToCompleted`. -/
def phaseDocMatches (phase f : String) : Bool :=
  strEndsWith f ".md" &&
    (strStartsWith f (phase ++ "_") || strStartsWith f (phase ++ "-") || f == phase ++ ".md")

/-- Embedding of `movePhaseDocToCompleted` (on-phase-done.mjs): rename
every matching phase document from active to completed; with no match the
function returns without touching anything. -/
def movePhaseDocToCompleted (phase : String) (st : PhaseState) : PhaseState :=
  match st.phaseActive.filter (phaseDocMatches phase) with
  | [] => st
  | f :: fs =>
    ⟨st.phaseActive.filter (fun g => !(phaseDocMatches phase g)),
     st.phaseCompleted ++ (f :: fs)⟩

/-!  The resolved-marker reconciliation loop at the top of run-steps.sh. -/

/-- The glob `resolved_*.md` used both to enumerate markers and to decide
which action files the reconciliation removes. -/
def isResolvedName (f : String) : Bool :=
  strStartsWith f "resolved_" && strEndsWith f ".md"

/-- Embedding of the bash pattern
`^resolved_(P[0-9]+(\.[0-9]+)*_[0-9]+(\.[0-9]+)*\.[0-9]+(\.[0-9]+)*)(_|$)`
applied to the marker basename with the `.md` suffix stripped: the embedded
step id, when present. -/
def parseResolvedId (fname : String) : Option String :=
  if strStartsWith fname "resolved_" && strEndsWith fname ".md" then
    match (fname.data.take (fname.data.length - 3)).drop 9 with
    | 'P' :: r =>
      match parseDotted r with
      | some (a, '_' :: r2) =>
        match parseDotted r2 with
        | some (b, r3) =>
          if 0 < countDots b then
            match r3 with
            | [] => some (String.mk ('P' :: (a ++ '_' :: b)))
            | '_' :: _ => some (String.mk ('P' :: (a ++ '_' :: b)))
            | _ => none
          else none
        | none => none
      | _ => none
    | _ => none
  else none

/-- The glob `${step_id}_*.md` over the active steps area. -/
def stepMatches (id f : String) : Bool :=
  strStartsWith f (id ++ "_") && strEndsWith f ".md"

/-- State seen by one run-steps.sh loop iteration: the action-required
listing, the active and completed step listings, and the log of
on-step-completed invocations made while reconciling. -/
structure LoopState where
  action : List String
  activeSteps : List String
  completedSteps : List String
  promoted : List String
deriving DecidableEq

/-- Processing of a single `resolved_*.md` marker: when its name embeds a
step id and a matching step file still exists in the active area, the first
matching file is moved to completed and on-step-completed is invoked for
it; in every case the marker file itself is removed. -/
def processMarker (st : LoopState) (m : String) : LoopState :=
  let st2 :=
    match parseResolvedId m with
    | none => st
    | some id =>
      match st.activeSteps.filter (stepMatches id) with
      | [] => st
      | f :: _ =>
        ⟨st.action, st.activeSteps.erase f, st.completedSteps ++ [f],
         st.promoted ++ [f]⟩
  ⟨st2.action.erase m, st2.activeSteps, st2.completedSteps, st2.promoted⟩

/-- Embedding of the reconciliation loop run before `next-step.mjs` on
every iteration: fold marker processing over the `resolved_*.md` files of
the action-required listing, in glob order. -/
def reconcile (st : LoopState) : LoopState :=
  (st.action.filter isResolvedName).foldl processMarker st

/-- One full loop iteration of run-steps.sh up to the resolver call:
reconcile the resolved markers first, then run next-step.mjs on the
reconciled state.  The resolver reads the listings left by reconciliation. -/
def loopResolve (st : LoopState) (mkEnv : LoopState → Env) : LoopState × RunResult :=
  let st1 := reconcile st
  (st1, runMain (mkEnv st1))

/-!  The dependency graph over pending steps, for the exhaustion claim. -/

/-- Declared dependency edge: `a` is the id of a pending step that lists
`b` among its dependencies. -/
def depEdge (pending : List Step) (a b : String) : Prop :=
  ∃ s ∈ pending, s.id = a ∧ b ∈ s.dependsOn

/-- A directed cycle in the declared dependencies of the pending steps:
a chain of edges starting and ending at the same id. -/
def hasCycleDeps (pending : List Step) : Prop :=
  ∃ x l, List.Chain (depEdge pending) x l ∧ l.getLast? = some x

/-- Repeated resolution: each round selects the first ready pending step,
moves its file to the completed area and records its id as completed, until
no step is ready or the rounds are spent. -/
def runResolution : Nat → List Step × List String → List Step × List String
  | 0, st => st
  | n + 1, (pending, completed) =>
    match topoNext pending completed with
    | [] => (pending, completed)
    | s :: _ => runResolution n (pending.erase s, s.id :: completed)

/-!  Helper lemmas. -/

/-- Decomposition of the head of a filtered list: the selected element is
the first element of the base list satisfying the predicate. -/
theorem head_filter_decomp {α : Type} (p : α → Bool) :
    ∀ (l : List α) (s : α), (l.filter p).head? = some s →
      ∃ l1 l2, l = l1 ++ s :: l2 ∧ p s = true ∧ ∀ t ∈ l1, p t = false := by
  intro l
  induction l with
  | nil => intro s h; simp at h
  | cons a l ih =>
    intro s h
    by_cases hp : p a
    · rw [List.filter_cons_of_pos hp] at h
      simp only [List.head?_cons, Option.some.injEq] at h
      exact ⟨[], l, by rw [h]; rfl, h ▸ hp, by simp⟩
    · rw [List.filter_cons_of_neg hp] at h
      obtain ⟨l1, l2, hl, hs, hall⟩ := ih s h
      refine ⟨a :: l1, l2, by rw [hl]; rfl, hs, ?_⟩
      intro t ht
      rcases List.mem_cons.mp ht with rfl | ht
      · exact Bool.of_not_eq_true hp
      · exact hall t ht

/-- Erasing the unique element kept by a filter empties the filter. -/
theorem filter_erase_of_singleton {α : Type} [DecidableEq α] (p : α → Bool) :
    ∀ (l : List α) (f : α), l.filter p = [f] → (l.erase f).filter p = [] := by
  intro l
  induction l with
  | nil => intro f h; simp at h
  | cons a l ih =>
    intro f h
    by_cases hp : p a
    · rw [List.filter_cons_of_pos hp] at h
      simp only [List.cons.injEq] at h
      obtain ⟨rfl, hrest⟩ := h
      rw [List.erase_cons_head]
      exact hrest
    · rw [List.filter_cons_of_neg hp] at h
      have haf : a ≠ f := by
        intro rfl
        have : a ∈ l.filter p := by rw [h]; exact List.mem_singleton.mpr rfl
        exact hp (List.mem_filter.mp this).2
      rw [List.erase_cons_tail (by simpa using haf), List.filter_cons_of_neg hp]
      exact ih f h

/-!  Claim C1: readiness characterisation of `topoNext`. -/

/-- C1.  A pending step is in the ready set computed by `topoNext` exactly
when every declared dependency is either among the completed ids or is not
the id of any currently-pending step; in particular a dependency that
appears nowhere in the pending set is treated as satisfied. -/
theorem topoNext_ready_iff (pending : List Step) (completedIds : List String)
    (s : Step) :
    s ∈ topoNext pending completedIds ↔
      s ∈ pending ∧ ∀ d ∈ s.dependsOn, d ∈ completedIds ∨ d ∉ pending.map Step.id := by
  simp only [topoNext, List.mem_filter, readyFor, List.all_eq_true,
    Bool.or_eq_true, Bool.not_eq_true', List.contains, List.elem_eq_mem,
    decide_eq_true_eq, decide_eq_false_iff_not]

/-!  Claim C8: absent, "none" or malformed dependency sections parse to
the empty list. -/

/-- C8.  `parseDependsOn` returns the empty dependency list (and never an
error) when the body has no "Depends on" section, when the section value is
the literal "none", and when the section contains no well-formed step id. -/
theorem parseDependsOn_empty_cases (content : String) :
    (extractDependsSection content.data = none → parseDependsOn content = []) ∧
    (∀ sec, extractDependsSection content.data = some sec →
      trimChars sec = "none".data → parseDependsOn content = []) ∧
    (∀ sec, extractDependsSection content.data = some sec →
      scanIds (trimChars sec) = [] → parseDependsOn content = []) := by
  refine ⟨fun h => ?_, fun sec h hn => ?_, fun sec h hs => ?_⟩
  · simp [parseDependsOn, h]
  · simp only [parseDependsOn, h]
    rw [hn]
    simp [show startsWithNone "none".data = true from by decide]
  · simp only [parseDependsOn, h]
    by_cases hb : startsWithNone (trimChars sec)
    · simp [hb]
    · simp [hb, hs, dedupFirst, dedupFirstAux]

/-- Step body with no dependency section. -/
def contentNoSection : String := "Implement the widget.

## Task
do things"

/-- Step body whose dependency value is the literal "none". -/
def contentNoneValue : String := "## Depends on
none

## Task
do things"

/-- Step body with a malformed dependency value containing no step id. -/
def contentMalformed : String := "## Depends on
TBD later
"

/-- Witness for C8 at the three concrete step bodies. -/
theorem parseDependsOn_empty_witness :
    parseDependsOn contentNoSection = [] ∧
    parseDependsOn contentNoneValue = [] ∧
    parseDependsOn contentMalformed = [] :=
  ⟨(parseDependsOn_empty_cases contentNoSection).1 (by decide),
   (parseDependsOn_empty_cases contentNoneValue).2.1 "none\n".data (by decide) (by decide),
   (parseDependsOn_empty_cases contentMalformed).2.2 "TBD later\n".data (by decide) (by decide)⟩

/-!  Claim C10: a "none"-prefixed dependency value discards every id. -/

/-- C10.  When the trimmed "Depends on" value begins with the four letters
of "none" in any case — also as a prefix of a longer word — `parseDependsOn`
returns the empty list, even when well-formed step ids occur later in the
section. -/
theorem none_prefix_ignores_ids (content : String) (sec : List Char)
    (h : extractDependsSection content.data = some sec)
    (hn : ((trimChars sec).take 4).map Char.toLower = "none".data) :
    parseDependsOn content = [] := by
  simp only [parseDependsOn, h]
  have hb : startsWithNone (trimChars sec) = true := by
    simp [startsWithNone, hn]
  simp [hb]

/-- Step body whose dependency value starts with "None" as a prefix of
"Nonessential" while a well-formed step id follows. -/
def contentNonePrefix : String := "## Depends on
Nonessential cleanup; see P1_02.3
"

/-- The section captured for `contentNonePrefix`. -/
def secNonePrefix : List Char := "Nonessential cleanup; see P1_02.3
".data

/-- Witness for C10: the section does contain a well-formed step id, yet
the parsed dependency list is empty. -/
theorem none_prefix_witness :
    scanIds (trimChars secNonePrefix) ≠ [] ∧ parseDependsOn contentNonePrefix = [] :=
  ⟨by decide,
   none_prefix_ignores_ids contentNonePrefix secNonePrefix (by decide) (by decide)⟩

/-!  Claim C2: the blocker gate. -/

/-- C2.  Whenever a non-resolved `.md` blocker marker exists, `main`
refuses to resolve a step: it exits 1, writes nothing, and reports the full
list of blocking files.  When the only action files are `resolved_*`
markers, resolution behaves exactly as with an empty action-required area,
so resolved markers alone never block. -/
theorem blocker_gate (env : Env) :
    (actionRequiredFiles env ≠ [] →
      runMain env = ⟨1, none, actionRequiredFiles env⟩) ∧
    (actionRequiredFiles env = [] →
      runMain env = runMain { env with actionListing := [] }) := by
  constructor
  · intro h
    rcases haf : actionRequiredFiles env with _ | ⟨f, fs⟩
    · exact absurd haf h
    · simp [runMain, haf]
  · intro h
    have h2 : actionRequiredFiles { env with actionListing := [] } = [] := by
      simp [actionRequiredFiles]
    simp only [runMain, h, h2]
    obtain ⟨al, cl, acl, co, ex, pf, dr, t1, t2, t3⟩ := env
    rfl

/-- An action-required area holding one active blocker and one resolved
marker, over a state where a step would otherwise be ready. -/
def envBlockedByMarker : Env :=
  { actionListing := ["take_action_P1_01.2_manual.md", "resolved_P1_01.1_old.md"]
    completedListing := []
    activeListing := ["P1_01.2_b.md"]
    contentOf := fun _ => none
    existsNow := fun _ => true
    phaseFilter := none
    dryRun := false
    templateHasStepFile := true
    templateHasOutput := true
    templateHasManual := true }

/-- Witness for C2: with the blocker present the run exits 1 reporting
exactly the non-resolved file; with only the resolved marker left the run
selects the ready step just as with an empty action area. -/
theorem blocker_gate_witness :
    runMain envBlockedByMarker =
      ⟨1, none, ["take_action_P1_01.2_manual.md"]⟩ ∧
    runMain { envBlockedByMarker with actionListing := ["resolved_P1_01.1_old.md"] } =
      runMain { envBlockedByMarker with actionListing := [] } :=
  ⟨((blocker_gate envBlockedByMarker).1 (by decide)).trans (by decide),
   ((blocker_gate { envBlockedByMarker with
      actionListing := ["resolved_P1_01.1_old.md"] }).2 (by decide)).trans rfl⟩

/-!  Claim C6: TODO promotion after a completed step. -/

/-- C6.  After a step completes, provided the step basename parses to a
TODO id, the promoter moves a TODO file exactly when no pending step with
that TODO id (or nested under it) remains; the file moved is the first
matching TODO file in listing order. -/
theorem todo_promotion_iff_no_remaining (sb : String) (steps todos : List String)
    (tid : String) (hmd : strEndsWith sb ".md" = true)
    (hid : todoIdFromStepFilename sb = some tid) :
    ((todos.filter (todoFilePred tid) ≠ [] →
        ((onStepCompleted sb steps todos).isSome = true ↔
          steps.filter (remainingStepPred tid) = [])) ∧
     (steps.filter (remainingStepPred tid) = [] →
        onStepCompleted sb steps todos = (todos.filter (todoFilePred tid)).head?)) := by
  constructor
  · intro hc
    rcases hrem : steps.filter (remainingStepPred tid) with _ | ⟨r, rs⟩
    · rcases hfil : todos.filter (todoFilePred tid) with _ | ⟨a, as⟩
      · exact absurd hfil hc
      · simp [onStepCompleted, hmd, hid, hrem, hfil]
    · simp [onStepCompleted, hmd, hid, hrem]
  · intro hrem
    simp [onStepCompleted, hmd, hid, hrem]

/-- Witness for C6: with no remaining sibling steps and two matching TODO
files, the first TODO file in listing order is moved. -/
theorem todo_promotion_witness :
    onStepCompleted "P1_01.2_b.md" [] ["P1_01_t.md", "P1_01_u.md"] = some "P1_01_t.md" :=
  ((todo_promotion_iff_no_remaining "P1_01.2_b.md" [] ["P1_01_t.md", "P1_01_u.md"]
      "P1_01" (by decide) (by decide)).2 (by decide)).trans (by decide)

/-!  Claim C7: monotonicity and idempotence of promotion. -/

/-- An active area holding two TODO files that both match the TODO id of
the completed step. -/
def twoTodoState : TodoState := ⟨[], ["P1_01_a.md", "P1_01_b.md"], []⟩

/-- Counterexample for C7 as stated: after the first promotion for step
`P1_01.1` has moved a TODO file to done, re-invoking the promoter for the
same TODO is not a no-op — it moves the second matching TODO file as well,
so the two successive states differ. -/
theorem promotion_reinvoke_not_noop :
    onStepCompletedRun "P1_01.1_x.md" (onStepCompletedRun "P1_01.1_x.md" twoTodoState) ≠
      onStepCompletedRun "P1_01.1_x.md" twoTodoState := by decide

/-- C7 (amended).  Promotion never moves files back: the active listings
only shrink and the completed listings only grow, for both the TODO and the
phase promoter; the phase promoter is unconditionally idempotent; and the
TODO promoter is idempotent whenever at most one TODO file matches the
completed step's TODO id (the normal one-file-per-TODO layout). -/
theorem promotion_monotone_idempotent (sb : String) (st : TodoState)
    (phase : String) (pst : PhaseState) :
    ((onStepCompletedRun sb st).activeTodos.Sublist st.activeTodos) ∧
    (st.completedTodos.Sublist (onStepCompletedRun sb st).completedTodos) ∧
    (∀ tid, todoIdFromStepFilename sb = some tid →
      (st.activeTodos.filter (todoFilePred tid)).length ≤ 1 →
      onStepCompletedRun sb (onStepCompletedRun sb st) = onStepCompletedRun sb st) ∧
    (movePhaseDocToCompleted phase (movePhaseDocToCompleted phase pst) =
      movePhaseDocToCompleted phase pst) ∧
    ((movePhaseDocToCompleted phase pst).phaseActive.Sublist pst.phaseActive) ∧
    (pst.phaseCompleted.Sublist (movePhaseDocToCompleted phase pst).phaseCompleted) := by
  refine ⟨?_, ?_, ?_, ?_, ?_, ?_⟩
  · rcases h : onStepCompleted sb st.activeSteps st.activeTodos with _ | f
    · simp [onStepCompletedRun, h]
    · simp only [onStepCompletedRun, h]
      exact List.erase_sublist f st.activeTodos
  · rcases h : onStepCompleted sb st.activeSteps st.activeTodos with _ | f
    · simp [onStepCompletedRun, h]
    · simp only [onStepCompletedRun, h]
      exact List.sublist_append_left st.completedTodos [f]
  · intro tid htid hlen
    rcases h : onStepCompleted sb st.activeSteps st.activeTodos with _ | f
    · have e1 : onStepCompletedRun sb st = st := by simp [onStepCompletedRun, h]
      rw [e1, e1]
    · by_cases hmd : strEndsWith sb ".md" = true
      · rcases hrem : st.activeSteps.filter (remainingStepPred tid) with _ | ⟨r, rs⟩
        · have hh : (st.activeTodos.filter (todoFilePred tid)).head? = some f := by
            simpa [onStepCompleted, hmd, htid, hrem] using h
          have hfil : st.activeTodos.filter (todoFilePred tid) = [f] := by
            rcases hx : st.activeTodos.filter (todoFilePred tid) with _ | ⟨a, as⟩
            · rw [hx] at hh; simp at hh
            · rcases as with _ | ⟨b, bs⟩
              · rw [hx] at hh
                simp only [List.head?_cons, Option.some.injEq] at hh
                rw [hh]
              · rw [hx] at hlen; simp at hlen
          have e1 : onStepCompletedRun sb st =
              ⟨st.activeSteps, st.activeTodos.erase f, st.completedTodos ++ [f]⟩ := by
            simp [onStepCompletedRun, h]
          have hfil2 : (st.activeTodos.erase f).filter (todoFilePred tid) = [] :=
            filter_erase_of_singleton (todoFilePred tid) st.activeTodos f hfil
          have e2 : onStepCompleted sb st.activeSteps (st.activeTodos.erase f) = none := by
            simp [onStepCompleted, hmd, htid, hrem, hfil2]
          rw [e1]
          simp [onStepCompletedRun, e2]
        · have : onStepCompleted sb st.activeSteps st.activeTodos = none := by
            simp [onStepCompleted, hmd, htid, hrem]
          rw [this] at h; exact absurd h (by simp)
      · have : onStepCompleted sb st.activeSteps st.activeTodos = none := by
          simp [onStepCompleted, hmd]
        rw [this] at h; exact absurd h (by simp)
  · rcases hf : pst.phaseActive.filter (phaseDocMatches phase) with _ | ⟨f, fs⟩
    · have e1 : movePhaseDocToCompleted phase pst = pst := by
        simp [movePhaseDocToCompleted, hf]
      rw [e1, e1]
    · have e1 : movePhaseDocToCompleted phase pst =
        ⟨pst.phaseActive.filter (fun g => !(phaseDocMatches phase g)),
         pst.phaseCompleted ++ (f :: fs)⟩ := by
        simp [movePhaseDocToCompleted, hf]
      have hf2 : (pst.phaseActive.filter
          (fun g => !(phaseDocMatches phase g))).filter (phaseDocMatches phase) = [] := by
        rw [List.filter_filter]
        have : (fun a => phaseDocMatches phase a && !(phaseDocMatches phase a)) =
            (fun _ => false) := by
          funext a; cases phaseDocMatches phase a <;> rfl
        rw [this, List.filter_false]
      rw [e1]
      simp [movePhaseDocToCompleted, hf2]
  · rcases hf : pst.phaseActive.filter (phaseDocMatches phase) with _ | ⟨f, fs⟩
    · simp [movePhaseDocToCompleted, hf]
    · simp only [movePhaseDocToCompleted, hf]
      exact List.filter_sublist pst.phaseActive
  · rcases hf : pst.phaseActive.filter (phaseDocMatches phase) with _ | ⟨f, fs⟩
    · simp [movePhaseDocToCompleted, hf]
    · simp only [movePhaseDocToCompleted, hf]
      exact List.sublist_append_left pst.phaseCompleted (f :: fs)

/-- A state with a single TODO file matching the completed step. -/
def oneTodoState : TodoState := ⟨[], ["P1_01_a.md", "P2_07_c.md"], []⟩

/-- Witness for the amended C7: with one matching TODO file, re-running
the promoter after promotion is a no-op. -/
theorem promotion_idempotent_witness :
    onStepCompletedRun "P1_01.1_x.md" (onStepCompletedRun "P1_01.1_x.md" oneTodoState) =
      onStepCompletedRun "P1_01.1_x.md" oneTodoState :=
  (promotion_monotone_idempotent "P1_01.1_x.md" oneTodoState "P1" ⟨[], []⟩).2.2.1
    "P1_01" (by decide) (by decide)

/-!  Claim C3: determinism and selection order of the resolver. -/

/-- Code-unit lexicographic comparison on character lists, the order
JavaScript string comparison induces on ASCII filenames. -/
def strLtChars : List Char → List Char → Bool
  | [], [] => false
  | [], _ :: _ => true
  | _ :: _, [] => false
  | a :: as, b :: bs => if a = b then strLtChars as bs else decide (a.toNat < b.toNat)

/-- Ascending order on raw filename strings. -/
def fileLt (a b : String) : Bool := strLtChars a.data b.data

/-- An unchanged filesystem whose active-steps listing is not in ascending
filename order (directory listings are returned in OS order, which
`readdirSync` does not sort): two steps without dependencies, the
alphabetically larger filename listed first. -/
def envListingOrder : Env :=
  { actionListing := []
    completedListing := []
    activeListing := ["P1_02.1_b.md", "P1_01.1_a.md"]
    contentOf := fun _ => none
    existsNow := fun _ => true
    phaseFilter := none
    dryRun := false
    templateHasStepFile := true
    templateHasOutput := true
    templateHasManual := true }

/-- Counterexample for C3 as stated: the resolver selects the step listed
first, although another ready pending step has a strictly smaller raw
filename — so the selected step is not the least under ascending filename
order. -/
theorem next_selection_not_least_filename :
    (runMain envListingOrder).wrote = some ⟨"P1_02.1", "P1_02.1_b.md", []⟩ ∧
    (⟨"P1_01.1", "P1_01.1_a.md", []⟩ : Step) ∈ consideredPending envListingOrder ∧
    readyFor (consideredPending envListingOrder) (getCompletedIds envListingOrder)
      ⟨"P1_01.1", "P1_01.1_a.md", []⟩ = true ∧
    fileLt "P1_01.1_a.md" "P1_02.1_b.md" = true := by
  refine ⟨by decide, by decide, by decide, by decide⟩

/-- C3 (amended).  The resolver is a pure function of the listings, so a
fixed filesystem always yields the same selection; the step it selects is
the first ready step (whose file still exists) in directory-listing order —
every step listed before it is unready or missing — not the least filename. -/
theorem next_selection_first_in_listing (env : Env) (s : Step)
    (h : (runMain env).wrote = some s) :
    ∃ l1 l2, consideredPending env = l1 ++ s :: l2 ∧
      readyFor (consideredPending env) (getCompletedIds env) s = true ∧
      env.existsNow s.filename = true ∧
      ∀ t ∈ l1,
        ¬(readyFor (consideredPending env) (getCompletedIds env) t = true ∧
          env.existsNow t.filename = true) := by
  rcases haf : actionRequiredFiles env with _ | ⟨f, fs⟩
  · rcases hp : consideredPending env with _ | ⟨p, ps⟩
    · rcases hpf : env.phaseFilter with _ | pf <;>
        simp [runMain, mainAfterGate, haf, hp, hpf] at h
    · simp only [runMain, mainAfterGate, haf, hp] at h
      rcases hr : topoNext (p :: ps) (getCompletedIds env) with _ | ⟨r, rs⟩
      · simp [resolvePhase, hr] at h
      · simp only [resolvePhase, hr] at h
        rcases hr2 : (r :: rs).filter (fun t => env.existsNow t.filename)
          with _ | ⟨u, us⟩
        · simp [hr2] at h
        · simp only [hr2] at h
          rcases hd : env.dryRun with _ | _
          · rw [hd] at h
            simp only [Bool.false_eq_true, if_false] at h
            by_cases ht : (env.templateHasStepFile && env.templateHasOutput &&
                env.templateHasManual) = true
            · rw [if_pos ht] at h
              simp only [RunResult.wrote, Option.some.injEq] at h
              have hhead : ((p :: ps).filter
                  (fun t => env.existsNow t.filename &&
                    readyFor (p :: ps) (getCompletedIds env) t)).head? = some u := by
                have heq : (p :: ps).filter
                    (fun t => env.existsNow t.filename &&
                      readyFor (p :: ps) (getCompletedIds env) t) =
                    (topoNext (p :: ps) (getCompletedIds env)).filter
                      (fun t => env.existsNow t.filename) := by
                  rw [topoNext, List.filter_filter]
                rw [heq, hr, hr2]
                rfl
              obtain ⟨l1, l2, hdec, hps, hall⟩ :=
                head_filter_decomp _ (p :: ps) u hhead
              have hps2 : env.existsNow u.filename = true ∧
                  readyFor (p :: ps) (getCompletedIds env) u = true := by
                simpa using hps
              refine ⟨l1, l2, ?_, ?_, ?_, ?_⟩
              · rw [hdec, h]
              · rw [← h]
                exact hps2.2
              · rw [← h]
                exact hps2.1
              · intro t ht hcontra
                have hf := hall t ht
                rw [hcontra.2, hcontra.1] at hf
                simp at hf
            · rw [if_neg ht] at h
              simp at h
          · rw [hd] at h
            simp at h
  · simp [runMain, haf] at h

/-- Witness for the amended C3 at the concrete unsorted listing: the
selected step decomposes the pending list with only unready-or-missing
steps before it. -/
theorem next_selection_first_witness :
    ∃ l1 l2, consideredPending envListingOrder =
        l1 ++ (⟨"P1_02.1", "P1_02.1_b.md", []⟩ : Step) :: l2 ∧
      readyFor (consideredPending envListingOrder) (getCompletedIds envListingOrder)
        ⟨"P1_02.1", "P1_02.1_b.md", []⟩ = true ∧
      envListingOrder.existsNow "P1_02.1_b.md" = true ∧
      ∀ t ∈ l1,
        ¬(readyFor (consideredPending envListingOrder)
            (getCompletedIds envListingOrder) t = true ∧
          envListingOrder.existsNow t.filename = true) :=
  next_selection_first_in_listing envListingOrder ⟨"P1_02.1", "P1_02.1_b.md", []⟩
    (by decide)

/-!  Claim C4: the exit-signal taxonomy. -/

/-- A state blocked by an unmet dependency: the only pending step lists a
dependency that is itself pending and not completed. -/
def envDepBlocked : Env :=
  { actionListing := []
    completedListing := []
    activeListing := ["P1_01.1_a.md"]
    contentOf := fun _ => some "## Depends on\nP1_01.1\n"
    existsNow := fun _ => true
    phaseFilter := none
    dryRun := false
    templateHasStepFile := true
    templateHasOutput := true
    templateHasManual := true }

/-- A configuration error: a step is ready, but the prompt template lacks
the required step-file placeholder, so resolution aborts fatally. -/
def envTemplateFatal : Env :=
  { actionListing := []
    completedListing := []
    activeListing := ["P1_01.1_a.md"]
    contentOf := fun _ => none
    existsNow := fun _ => true
    phaseFilter := none
    dryRun := false
    templateHasStepFile := false
    templateHasOutput := true
    templateHasManual := true }

/-- Counterexample for C4 as stated: a dependency-blocked invocation and a
fatal template-error invocation produce the same exit signal (code 1,
nothing written), so BLOCKED and FATAL are not pairwise distinguishable to
the caller. -/
theorem blocked_fatal_same_signal :
    (consideredPending envDepBlocked ≠ [] ∧
      topoNext (consideredPending envDepBlocked) (getCompletedIds envDepBlocked) = []) ∧
    (actionRequiredFiles envTemplateFatal = [] ∧
      envTemplateFatal.templateHasStepFile = false ∧
      topoNext (consideredPending envTemplateFatal)
        (getCompletedIds envTemplateFatal) ≠ []) ∧
    (runMain envDepBlocked).exit = (runMain envTemplateFatal).exit ∧
    (runMain envDepBlocked).wrote = (runMain envTemplateFatal).wrote := by
  refine ⟨⟨by decide, by decide⟩, ⟨by decide, by decide, by decide⟩, by decide, by decide⟩

/-- C4 (amended).  The taxonomy the caller can observe is three-way, not
four-way: exit 0 with a step written (NEXT_WRITTEN), exit 0 without a step
written or exit 2 under dry-run (EMPTY), and exit 1 with nothing written —
the class shared by BLOCKED and FATAL, since a template error aborts via an
uncaught exception reported as the same exit code 1. -/
theorem exit_signal_classification (env : Env) :
    ((runMain env).exit = 0 ∨ (runMain env).exit = 1 ∨ (runMain env).exit = 2) ∧
    ((runMain env).wrote.isSome = true → (runMain env).exit = 0) ∧
    ((runMain env).exit = 1 → (runMain env).wrote = none) ∧
    ((runMain env).exit = 2 → env.dryRun = true ∧ (runMain env).wrote = none) := by
  rcases haf : actionRequiredFiles env with _ | ⟨f, fs⟩
  · rcases hp : consideredPending env with _ | ⟨p, ps⟩
    · rcases hpf : env.phaseFilter with _ | pf
      · simp [runMain, mainAfterGate, haf, hp, hpf]
      · rcases hd : env.dryRun with _ | _ <;>
          simp [runMain, mainAfterGate, haf, hp, hpf, hd]
    · simp only [runMain, mainAfterGate, haf, hp]
      rcases hr : topoNext (p :: ps) (getCompletedIds env) with _ | ⟨r, rs⟩
      · simp [resolvePhase, hr]
      · simp only [resolvePhase, hr]
        rcases hr2 : (r :: rs).filter (fun t => env.existsNow t.filename)
          with _ | ⟨u, us⟩
        · rcases hd : env.dryRun with _ | _ <;> simp [hr2, hd]
        · rcases hd : env.dryRun with _ | _
          · by_cases ht : (env.templateHasStepFile && env.templateHasOutput &&
                env.templateHasManual) = true <;>
              simp [hr2, hd, ht]
          · simp [hr2, hd]
  · simp [runMain, haf]

/-- Witness for the amended C4: the fatal invocation exits 1, therefore
nothing was written for the executor. -/
theorem exit_signal_witness :
    (runMain envTemplateFatal).wrote = none :=
  (exit_signal_classification envTemplateFatal).2.2.1 (by decide)

/-!  Claim C5: reconciliation of resolved markers. -/

/-- Markers whose filename parses to a step id are `resolved_*.md` files. -/
theorem isResolved_of_parse (m : String) (id : String)
    (h : parseResolvedId m = some id) : isResolvedName m = true := by
  by_cases hc : (strStartsWith m "resolved_" && strEndsWith m ".md") = true
  · simpa [isResolvedName] using hc
  · rw [parseResolvedId, if_neg hc] at h
    simp at h

/-- Marker processing never touches the action listing except to remove
the processed marker. -/
theorem processMarker_action (st : LoopState) (m : String) :
    (processMarker st m).action = st.action.erase m := by
  rcases hpm : parseResolvedId m with _ | id
  · simp [processMarker, hpm]
  · rcases hf : st.activeSteps.filter (stepMatches id) with _ | ⟨f, fs⟩ <;>
      simp [processMarker, hpm, hf]

/-- Marker processing only shrinks the active steps listing. -/
theorem processMarker_active_sublist (st : LoopState) (m : String) :
    (processMarker st m).activeSteps.Sublist st.activeSteps := by
  rcases hpm : parseResolvedId m with _ | id
  · simp [processMarker, hpm]
  · rcases hf : st.activeSteps.filter (stepMatches id) with _ | ⟨f, fs⟩
    · simp [processMarker, hpm, hf]
    · simp only [processMarker, hpm, hf]
      exact List.erase_sublist f st.activeSteps

/-- Marker processing only extends the completed and promoted logs. -/
theorem processMarker_mono (st : LoopState) (m : String) :
    st.completedSteps.Sublist (processMarker st m).completedSteps ∧
    st.promoted.Sublist (processMarker st m).promoted := by
  rcases hpm : parseResolvedId m with _ | id
  · simp [processMarker, hpm]
  · rcases hf : st.activeSteps.filter (stepMatches id) with _ | ⟨f, fs⟩
    · simp [processMarker, hpm, hf]
    · simp only [processMarker, hpm, hf]
      exact ⟨List.sublist_append_left _ [f], List.sublist_append_left _ [f]⟩

/-- Folding marker processing over a marker list erases exactly those
markers from the action listing. -/
theorem foldl_processMarker_action :
    ∀ (ms : List String) (st : LoopState),
      (ms.foldl processMarker st).action =
        ms.foldl (fun l m => l.erase m) st.action := by
  intro ms
  induction ms with
  | nil => intro st; rfl
  | cons m ms ih =>
    intro st
    simp only [List.foldl_cons]
    rw [ih, processMarker_action]

/-- Erasing an element absent from the marker list commutes with the
erase fold. -/
theorem foldl_erase_cons (x : String) :
    ∀ (ms : List String) (l : List String), x ∉ ms →
      ms.foldl (fun acc m => acc.erase m) (x :: l) =
        x :: ms.foldl (fun acc m => acc.erase m) l := by
  intro ms
  induction ms with
  | nil => intro l _; rfl
  | cons m ms ih =>
    intro l hx
    have hxm : ¬(m == x) := by
      simp only [beq_iff_eq]
      intro h
      exact hx (h ▸ List.mem_cons_self m ms)
    simp only [List.foldl_cons]
    rw [List.erase_cons_tail (by simpa using fun h => hxm (by simp [h]))]
    exact ih (l.erase m) (fun h => hx (List.mem_cons_of_mem m h))

/-- Erasing every element kept by a filter, one occurrence per occurrence,
leaves exactly the elements the filter rejects. -/
theorem foldl_erase_filter (p : String → Bool) :
    ∀ (l : List String),
      (l.filter p).foldl (fun acc m => acc.erase m) l =
        l.filter (fun x => !(p x)) := by
  intro l
  induction l with
  | nil => rfl
  | cons a l ih =>
    by_cases hp : p a = true
    · rw [List.filter_cons_of_pos hp, List.foldl_cons, List.erase_cons_head,
        List.filter_cons_of_neg (by simp [hp]), ih]
    · have ha : a ∉ l.filter p := by
        intro hmem
        exact hp (List.mem_filter.mp hmem).2
      rw [List.filter_cons_of_neg hp, foldl_erase_cons a (l.filter p) l ha,
        List.filter_cons_of_pos (by simp [hp]), ih]

/-- The reconciliation fold only shrinks the active steps listing. -/
theorem foldl_processMarker_active :
    ∀ (ms : List String) (st : LoopState),
      (ms.foldl processMarker st).activeSteps.Sublist st.activeSteps := by
  intro ms
  induction ms with
  | nil => intro st; exact List.Sublist.refl _
  | cons m ms ih =>
    intro st
    exact (ih (processMarker st m)).trans (processMarker_active_sublist st m)

/-- The reconciliation fold only extends the completed and promoted logs. -/
theorem foldl_processMarker_mono :
    ∀ (ms : List String) (st : LoopState),
      st.completedSteps.Sublist ((ms.foldl processMarker st).completedSteps) ∧
      st.promoted.Sublist ((ms.foldl processMarker st).promoted) := by
  intro ms
  induction ms with
  | nil => intro st; exact ⟨List.Sublist.refl _, List.Sublist.refl _⟩
  | cons m ms ih =>
    intro st
    obtain ⟨h1, h2⟩ := processMarker_mono st m
    obtain ⟨h3, h4⟩ := ih (processMarker st m)
    exact ⟨h1.trans h3, h2.trans h4⟩

/-- A step matching `id` that is either still pending or already moved and
promoted: the invariant threaded through the reconciliation fold. -/
def markerInv (id : String) (st : LoopState) : Prop :=
  (∃ f, stepMatches id f = true ∧ f ∈ st.activeSteps) ∨
  (∃ f, stepMatches id f = true ∧ f ∈ st.completedSteps ∧ f ∈ st.promoted)

/-- The moved-and-promoted disjunct of the invariant. -/
def markerDone (id : String) (st : LoopState) : Prop :=
  ∃ f, stepMatches id f = true ∧ f ∈ st.completedSteps ∧ f ∈ st.promoted

/-- Processing any marker preserves the invariant. -/
theorem processMarker_inv (id : String) (st : LoopState) (m : String)
    (h : markerInv id st) : markerInv id (processMarker st m) := by
  rcases hpm : parseResolvedId m with _ | id2
  · simpa [processMarker, hpm] using h
  · rcases hf : st.activeSteps.filter (stepMatches id2) with _ | ⟨f, fs⟩
    · simpa [processMarker, hpm, hf] using h
    · have hfa : f ∈ st.activeSteps ∧ stepMatches id2 f = true :=
        List.mem_filter.mp (hf ▸ List.mem_cons_self f fs)
      rcases h with ⟨g, hg, hga⟩ | ⟨g, hg, hgc, hgp⟩
      · by_cases hgf : g = f
        · right
          refine ⟨f, hgf ▸ hg, ?_, ?_⟩ <;>
            simp [processMarker, hpm, hf]
        · left
          refine ⟨g, hg, ?_⟩
          simp only [processMarker, hpm, hf]
          exact List.mem_erase_of_ne hgf |>.mpr hga
      · right
        refine ⟨g, hg, ?_, ?_⟩ <;>
          simp [processMarker, hpm, hf, hgc, hgp]

/-- Processing the marker that names `id` establishes the moved-and-
promoted disjunct. -/
theorem processMarker_hits (id : String) (st : LoopState) (m : String)
    (hpm : parseResolvedId m = some id) (h : markerInv id st) :
    markerDone id (processMarker st m) := by
  rcases hf : st.activeSteps.filter (stepMatches id) with _ | ⟨f, fs⟩
  · rcases h with ⟨g, hg, hga⟩ | ⟨g, hg, hgc, hgp⟩
    · exfalso
      have : g ∈ st.activeSteps.filter (stepMatches id) :=
        List.mem_filter.mpr ⟨hga, hg⟩
      rw [hf] at this
      simp at this
    · refine ⟨g, hg, ?_, ?_⟩ <;> simp [processMarker, hpm, hf, hgc, hgp]
  · have hfa : f ∈ st.activeSteps ∧ stepMatches id f = true :=
      List.mem_filter.mp (hf ▸ List.mem_cons_self f fs)
    refine ⟨f, hfa.2, ?_, ?_⟩ <;> simp [processMarker, hpm, hf]

/-- The moved-and-promoted disjunct persists through further processing. -/
theorem markerDone_mono (id : String) (ms : List String) (st : LoopState)
    (h : markerDone id st) : markerDone id (ms.foldl processMarker st) := by
  obtain ⟨f, hf, hc, hp⟩ := h
  obtain ⟨h1, h2⟩ := foldl_processMarker_mono ms st
  exact ⟨f, hf, h1.subset hc, h2.subset hp⟩

/-- Any marker in the processed list whose name parses to `id` forces the
moved-and-promoted disjunct from the invariant. -/
theorem foldl_processMarker_hits (id : String) :
    ∀ (ms : List String) (st : LoopState) (m : String), m ∈ ms →
      parseResolvedId m = some id → markerInv id st →
      markerDone id (ms.foldl processMarker st) := by
  intro ms
  induction ms with
  | nil => intro st m hm; simp at hm
  | cons m0 ms ih =>
    intro st m hm hpm hinv
    rcases List.mem_cons.mp hm with rfl | hm2
    · exact markerDone_mono id ms _ (processMarker_hits id st m hpm hinv)
    · exact ih (processMarker st m0) m hm2 hpm (processMarker_inv id st m0 hinv)

/-- C5.  Reconciliation consumes every observed resolved marker before the
resolver runs: all `resolved_*.md` files are removed from the action area,
the active steps listing only shrinks, and for each marker naming a step id
with a matching pending step file, a matching file ends up in the completed
area with the completion promoter invoked on it. -/
theorem reconcile_consumes_markers (st : LoopState) :
    ((reconcile st).action = st.action.filter (fun f => !(isResolvedName f))) ∧
    ((reconcile st).activeSteps.Sublist st.activeSteps) ∧
    (∀ m ∈ st.action, ∀ id, parseResolvedId m = some id →
      (∃ f, stepMatches id f = true ∧ f ∈ st.activeSteps) →
      ∃ f, stepMatches id f = true ∧ f ∈ (reconcile st).completedSteps ∧
        f ∈ (reconcile st).promoted) := by
  refine ⟨?_, ?_, ?_⟩
  · rw [reconcile, foldl_processMarker_action, foldl_erase_filter]
  · exact foldl_processMarker_active _ st
  · intro m hm id hpm hex
    have hmem : m ∈ st.action.filter isResolvedName :=
      List.mem_filter.mpr ⟨hm, isResolved_of_parse m id hpm⟩
    exact foldl_processMarker_hits id (st.action.filter isResolvedName) st m
      hmem hpm (Or.inl hex)

/-- A loop state with one resolved marker naming step `P1_01.2`, an
unrelated action note, and the matching pending step file. -/
def reconcileDemo : LoopState :=
  ⟨["resolved_P1_01.2_failed.md", "other_note.md"], ["P1_01.2_b.md"], [], []⟩

/-- Witness for C5: the marker is deleted (the unrelated note stays) and
the named step is moved to completed with the promoter invoked. -/
theorem reconcile_consumes_witness :
    (reconcile reconcileDemo).action = ["other_note.md"] ∧
    ∃ f, stepMatches "P1_01.2" f = true ∧
      f ∈ (reconcile reconcileDemo).completedSteps ∧
      f ∈ (reconcile reconcileDemo).promoted :=
  ⟨((reconcile_consumes_markers reconcileDemo).1).trans (by decide),
   (reconcile_consumes_markers reconcileDemo).2.2 "resolved_P1_01.2_failed.md"
     (by decide) "P1_01.2" (by decide) ⟨"P1_01.2_b.md", by decide, by decide⟩⟩

/-!  Claim C9: acyclic dependencies guarantee progress and exhaustion. -/

/-- Along a chain of edges that strictly decrease a rank, every chain
element has rank below the start. -/
theorem chain_rank_lt {R : String → String → Prop} (f : String → Nat)
    (hR : ∀ a b, R a b → f b < f a) :
    ∀ (l : List String) (x z : String), List.Chain R x l → z ∈ l → f z < f x := by
  intro l
  induction l with
  | nil => intro x z _ hz; simp at hz
  | cons b l ih =>
    intro x z hch hz
    rcases List.chain_cons.mp hch with ⟨hxb, hch2⟩
    rcases List.mem_cons.mp hz with rfl | hz2
    · exact hR x z hxb
    · exact Nat.lt_trans (ih b z hch2 hz2) (hR x b hxb)

/-- A rank that strictly decreases along every declared dependency rules
out dependency cycles. -/
theorem rank_no_cycle (pending : List Step) (f : String → Nat)
    (h : ∀ s ∈ pending, ∀ d ∈ s.dependsOn, f d < f s.id) :
    ¬ hasCycleDeps pending := by
  rintro ⟨x, l, hch, hlast⟩
  have hR : ∀ a b, depEdge pending a b → f b < f a := by
    rintro a b ⟨s, hs, rfl, hb⟩
    exact h s hs b hb
  exact Nat.lt_irrefl (f x)
    (chain_rank_lt f hR l x x hch (List.mem_of_getLast?_eq_some hlast))

/-- A sequence of ids linked by successive edges yields a chain. -/
theorem chain_of_seq {R : String → String → Prop} (h : Nat → String)
    (hstep : ∀ n, R (h n) (h (n + 1))) :
    ∀ (m a : Nat),
      List.Chain R (h a) ((List.range m).map (fun k => h (a + k + 1))) := by
  intro m
  induction m with
  | zero => intro a; exact List.Chain.nil
  | succ m ih =>
    intro a
    rw [List.range_succ_eq_map]
    simp only [List.map_cons, List.map_map]
    refine List.chain_cons.mpr ⟨?_, ?_⟩
    · simpa using hstep a
    · have harg : ((fun k => h (a + k + 1)) ∘ Nat.succ) =
          (fun k => h ((a + 1) + k + 1)) := by
        funext k
        simp only [Function.comp]
        congr 1
        omega
      rw [harg]
      simpa using ih (a + 1)

/-- The last id of the mapped range is the sequence value at the far end. -/
theorem getLast_of_seq (h : Nat → String) (m a : Nat) (hm : 0 < m) :
    ((List.range m).map (fun k => h (a + k + 1))).getLast? = some (h (a + m)) := by
  obtain ⟨m2, rfl⟩ : ∃ m2, m = m2 + 1 := ⟨m - 1, by omega⟩
  rw [List.range_succ, List.map_append]
  simp only [List.map_cons, List.map_nil]
  rw [List.getLast?_concat]
  congr 2

/-- With a non-empty acyclic pending set, the ready set computed by
`topoNext` is never empty, whatever the completed-id set. -/
theorem topoNext_ne_nil_of_acyclic (pending : List Step) (completed : List String)
    (hne : pending ≠ []) (hacy : ¬ hasCycleDeps pending) :
    topoNext pending completed ≠ [] := by
  intro hready
  have hstuck : ∀ s, s ∈ pending → ∃ t, t ∈ pending ∧ t.id ∈ s.dependsOn := by
    intro s hs
    have hnr : ¬ (readyFor pending completed s = true) := by
      intro hr
      have hmem : s ∈ topoNext pending completed := List.mem_filter.mpr ⟨hs, hr⟩
      rw [hready] at hmem
      simp at hmem
    rw [readyFor] at hnr
    simp only [List.all_eq_true, not_forall] at hnr
    obtain ⟨d, hd, hviol⟩ := hnr
    have hviol2 : ¬(completed.contains d ||
        !((pending.map Step.id).contains d)) = true := by
      simpa using hviol
    simp only [Bool.or_eq_true, Bool.not_eq_true', not_or, Bool.not_eq_false] at hviol2
    obtain ⟨-, hdp⟩ := hviol2
    have : d ∈ pending.map Step.id := by
      simpa [List.contains, List.elem_eq_mem] using hdp
    obtain ⟨t, ht, rfl⟩ := List.mem_map.mp this
    exact ⟨t, ht, hd⟩
  choose nxt hmem hdep using hstuck
  obtain ⟨s0, hs0⟩ : ∃ s, s ∈ pending := by
    rcases pending with _ | ⟨p, ps⟩
    · exact absurd rfl hne
    · exact ⟨p, List.mem_cons_self p ps⟩
  let g : Nat → {s : Step // s ∈ pending} := fun n =>
    Nat.rec ⟨s0, hs0⟩ (fun _ q => ⟨nxt q.1 q.2, hmem q.1 q.2⟩) n
  have hedge : ∀ n, depEdge pending (g n).1.id (g (n + 1)).1.id := by
    intro n
    exact ⟨(g n).1, (g n).2, rfl, hdep (g n).1 (g n).2⟩
  have key : ∀ a b, a < b → (g a).1.id = (g b).1.id → False := by
    intro a b hab habeq
    apply hacy
    refine ⟨(g a).1.id,
      (List.range (b - a)).map (fun k => (g (a + k + 1)).1.id), ?_, ?_⟩
    · exact chain_of_seq (fun n => (g n).1.id) hedge (b - a) a
    · rw [getLast_of_seq (fun n => (g n).1.id) (b - a) a (by omega)]
      have : a + (b - a) = b := by omega
      rw [this, habeq]
  have hmt : ∀ n, n ∈ Finset.range (pending.length + 1) →
      (g n).1.id ∈ (pending.map Step.id).toFinset := by
    intro n _
    exact List.mem_toFinset.mpr (List.mem_map_of_mem Step.id (g n).2)
  have hcard : (pending.map Step.id).toFinset.card <
      (Finset.range (pending.length + 1)).card := by
    rw [Finset.card_range]
    have h1 : (pending.map Step.id).toFinset.card ≤ (pending.map Step.id).length :=
      List.toFinset_card_le (pending.map Step.id)
    rw [List.length_map] at h1
    omega
  obtain ⟨i, hi, j, hj, hij, heq⟩ :=
    Finset.exists_ne_map_eq_of_card_lt_of_maps_to hcard hmt
  rcases Nat.lt_or_ge i j with hlt | hge
  · exact key i j hlt heq
  · exact key j i (by omega) heq.symm

/-- Erasing a step cannot create a dependency cycle. -/
theorem no_cycle_erase (pending : List Step) (s : Step)
    (hacy : ¬ hasCycleDeps pending) : ¬ hasCycleDeps (pending.erase s) := by
  rintro ⟨x, l, hch, hlast⟩
  refine hacy ⟨x, l, ?_, hlast⟩
  refine hch.imp ?_
  rintro a b ⟨t, ht, rfl, hb⟩
  exact ⟨t, (List.erase_sublist s pending).subset ht, rfl, hb⟩

/-- With acyclic dependencies, as many resolution rounds as there are
pending steps empty the pending set. -/
theorem runResolution_exhausts :
    ∀ (n : Nat) (pending : List Step) (completed : List String),
      pending.length ≤ n → ¬ hasCycleDeps pending →
      (runResolution n (pending, completed)).1 = [] := by
  intro n
  induction n with
  | zero =>
    intro pending completed hlen _
    have : pending = [] := List.length_eq_zero.mp (Nat.le_zero.mp hlen)
    rw [this]
    rfl
  | succ n ih =>
    intro pending completed hlen hacy
    by_cases hpe : pending = []
    · rw [hpe]
      rfl
    · rcases hr : topoNext pending completed with _ | ⟨s, ss⟩
      · exact absurd hr (topoNext_ne_nil_of_acyclic pending completed hpe hacy)
      · have hs : s ∈ pending := by
          have : s ∈ topoNext pending completed := by
            rw [hr]
            exact List.mem_cons_self s ss
          exact (List.mem_filter.mp this).1
        simp only [runResolution, hr]
        apply ih
        · rw [List.length_erase_of_mem hs]
          have : 1 ≤ pending.length := by
            rcases pending with _ | _
            · exact absurd rfl hpe
            · simp
          omega
        · exact no_cycle_erase pending s hacy

/-- C9.  Whenever the pending set is non-empty and its declared
dependencies contain no cycle, the computed ready set is non-empty, and
repeated resolution — selecting a ready step and moving it to done —
exhausts all pending steps within as many rounds as there are steps. -/
theorem acyclic_resolution_exhausts (pending : List Step) (completed : List String)
    (hne : pending ≠ []) (hacy : ¬ hasCycleDeps pending) :
    topoNext pending completed ≠ [] ∧
    (runResolution pending.length (pending, completed)).1 = [] :=
  ⟨topoNext_ne_nil_of_acyclic pending completed hne hacy,
   runResolution_exhausts pending.length pending completed (Nat.le_refl _) hacy⟩

/-- The worked example of the specification: step `P1_01.1` without
dependencies and step `P1_01.2` depending on it. -/
def examplePending : List Step :=
  [⟨"P1_01.1", "P1_01.1_a.md", []⟩, ⟨"P1_01.2", "P1_01.2_b.md", ["P1_01.1"]⟩]

/-- A topological rank for the example steps. -/
def exampleRank (id : String) : Nat := if id == "P1_01.1" then 0 else 1

/-- Witness for C9 at the example: the ready set is non-empty and two
rounds of resolution empty the pending set. -/
theorem acyclic_resolution_witness :
    topoNext examplePending [] ≠ [] ∧
    (runResolution examplePending.length (examplePending, [])).1 = [] :=
  acyclic_resolution_exhausts examplePending [] (by decide)
    (rank_no_cycle examplePending exampleRank (by decide))

end TodoRunner
